import Mathlib

/-!
A shallow embedding of patternomatic's `find_patterns` API
(`src/patternomatic/api.py`) and of the grammatical-evolution population
operators exercised by `tests/test_population.py`.  The population, stats
and grammar modules themselves are not in the source set; where a claim
depends on them they are modelled from the specification, and each such
definition says so in its doc comment.
-/

/-- An annotated document: the result of applying a language pipeline to a
raw sample string.  The annotation collaborator is external; the engine
treats documents as immutable values, so the carrier records the sample it
came from. -/
structure Doc where
  text : String
deriving DecidableEq

/-- A loaded spaCy language pipeline, abstracted to the map it applies to
each raw sample (api.py line 75). -/
structure Nlp where
  buildDoc : String → Doc

/-- Python error classes relevant to `find_patterns`: `OSError`, which the
fallback handler catches, and any other exception class. -/
inductive PyErr where
  | osError
  | otherError
deriving DecidableEq

/-- The ambient spaCy installation: `load name` either returns a pipeline
or raises.  `find_patterns` calls it with the caller-supplied name
(possibly `None`) and possibly with `"en_core_web_sm"`. -/
structure SpacyEnv where
  load : Option String → Except PyErr Nlp

/-- Embedding of the `try: nlp = spacy_load(name) / except OSError:
nlp = spacy_load("en_core_web_sm")` block of `find_patterns` (api.py lines
64-72): an `OSError` from the first load is caught and the default model is
loaded instead; any other exception propagates. -/
def loadNlpFallback (env : SpacyEnv) (name : Option String) : Except PyErr Nlp :=
  match env.load name with
  | .ok nlp => .ok nlp
  | .error .osError => env.load (some "en_core_web_sm")
  | .error e => .error e

/-- An individual of the genetic population: a bit-string genotype, the
decoded phenotype (`fenotype` in the source's spelling) and its cached
fitness.  Fitness is a real number in [0,1] in the program; it is embedded
as a rational, which is faithful to every comparison the embedded code
performs. -/
structure Individual where
  genotype : List Bool
  fenotype : String
  fitness_value : ℚ
deriving DecidableEq, Inhabited

/-- Modelled from the spec: `patternomatic.nlp.bnf.dynamic_generator` (the
Grammar Builder, spec §4.1) is not under the source set; the spec requires
only that it is a deterministic function of the annotated samples, so the
grammar is embedded as the immutable record of the documents it was built
from. -/
structure Grammar where
  fromDocs : List Doc
deriving DecidableEq

/-- Modelled from the spec: deterministic grammar construction (§4.1),
`dgg` being the alias used by api.py line 30. -/
def dgg (docs : List Doc) : Grammar := ⟨docs⟩

/-- A Python value occurring in the rows zipped together by
`find_patterns`' return expression: either a phenotype or a fitness
value. -/
inductive PVal where
  | fen : String → PVal
  | fit : ℚ → PVal
deriving DecidableEq, Inhabited

/-- Length of the shortest row of a nonempty row list. -/
def minRowLen : List (List α) → ℕ
  | [] => 0
  | [r] => r.length
  | r :: s :: rest => min r.length (minRowLen (s :: rest))

/-- Embedding of Python's `list(zip(*rows))`: the transpose of `rows`
truncated at the shortest row; `zip()` applied to no rows yields the empty
list. -/
def zipStar [Inhabited α] (rows : List (List α)) : List (List α) :=
  match rows with
  | [] => []
  | _ :: _ => (List.range (minRowLen rows)).map (fun j => rows.map (fun r => r.getD j default))

/-- Insert an individual into a fitness-descending list, after every
element of fitness greater than or equal to its own, so that among
equal-fitness elements the earlier-inserted one stays first. -/
def insertDesc (a : Individual) : List Individual → List Individual
  | [] => [a]
  | b :: t => if a.fitness_value ≤ b.fitness_value then b :: insertDesc a t else a :: b :: t

/-- Embedding of Python's stable in-place
`sort(key=lambda i: i.fitness_value, reverse=True)` (api.py line 103): a
stable descending sort by fitness, realised as left-to-right stable
insertion. -/
def sortDesc (l : List Individual) : List Individual :=
  l.foldl (fun acc a => insertDesc a acc) []

/-- Modelled from the spec: the Stats accumulator update (spec §4.6;
`patternomatic.ge.stats` is not under the source set): insert a run's best
individual keeping the accumulator sorted descending by fitness, ties
keeping first-seen order, and cap its length at `k`. -/
def addBest (k : ℕ) (acc : List Individual) (i : Individual) : List Individual :=
  (insertDesc i acc).take k

/-- The accumulator contents after inserting the best individuals of all
runs, in run order. -/
def buildAcc (k : ℕ) (bests : List Individual) : List Individual :=
  bests.foldl (addBest k) []

/-- The boolean predicate selecting individuals of one given fitness,
used to state sort stability. -/
def hasFit (q : ℚ) (i : Individual) : Bool := decide (i.fitness_value = q)

/-- Fitness-descending adjacency: `a` is at least as fit as `b`. -/
def FitGE (a b : Individual) : Prop := b.fitness_value ≤ a.fitness_value

/-- A list sorted in descending order of fitness. -/
def SortedDesc (l : List Individual) : Prop := List.Pairwise FitGE l

/-- Embedding of `find_patterns`' closing lines (api.py lines 103-109):
sort the accumulator descending by fitness, form the row
`[i.fenotype, i.fitness_value]` for each accumulated individual, and
return `list(zip(*rows))`. -/
def return_value (acc : List Individual) : List (List PVal) :=
  zipStar ((sortDesc acc).map (fun i => [PVal.fen i.fenotype, PVal.fit i.fitness_value]))

/-- What the spec's result-surface sentence says the return value is: one
`(phenotype, fitness)` pair per accumulated individual, sorted descending
by fitness.  Stated from the spec's words, for comparison with
`return_value`. -/
def claimed_return (acc : List Individual) : List (String × ℚ) :=
  (sortDesc acc).map (fun i => (i.fenotype, i.fitness_value))

/-- Observable calls `find_patterns` makes once the language model is
loaded (api.py lines 86-100). -/
inductive Event where
  | buildGrammar
  | newPopulation (docs : List Doc) (g : Grammar)
  | evolveCall
  | addTime
  | calcMetrics
  | persist
deriving DecidableEq

/-- The calls of one iteration of the run loop (api.py lines 91-97): build
a fresh Population from the documents and the grammar, evolve it, record
the elapsed time of this run, recompute metrics. -/
def runBlock (docs : List Doc) (g : Grammar) : List Event :=
  [.newPopulation docs g, .evolveCall, .addTime, .calcMetrics]

/-- The calls of `for _ in range(0, max_runs)` (api.py line 91): one
`runBlock` per iteration, in order. -/
def loopTrace (docs : List Doc) (g : Grammar) : ℕ → List Event
  | 0 => []
  | n + 1 => loopTrace docs g n ++ runBlock docs g

/-- The configuration fields of `find_patterns` the embedded claims depend
on: the run count `max_runs` and the accumulator bound `k`. -/
structure Config where
  max_runs : ℕ
  k : ℕ

/-- Embedding of `find_patterns` after the language model is loaded
(api.py lines 74-109): annotate the samples into documents, build the
grammar once, run the loop `max_runs` times — each iteration creating a
Population from the same documents and the same grammar, evolving it and
recording its elapsed time — and return the zipped, sorted accumulator.
The best individual each run contributes to the accumulator is abstracted
as `runBest`, because it is produced inside `Population.evolve`, which is
not under the source set. -/
def find_patterns_core (nlp : Nlp) (samples : List String) (cfg : Config)
    (runBest : ℕ → Individual) : List Event × List (List PVal) :=
  let docs := samples.map nlp.buildDoc
  let g := dgg docs
  (Event.buildGrammar :: loopTrace docs g cfg.max_runs ++ [Event.persist],
   return_value (buildAcc cfg.k ((List.range cfg.max_runs).map runBest)))

/-- Embedding of `find_patterns` (api.py lines 35-109): load the language
model with the `OSError` fallback to `en_core_web_sm`, then run the rest of
the pipeline; an uncaught load error propagates to the caller. -/
def find_patterns (env : SpacyEnv) (name : Option String) (samples : List String)
    (cfg : Config) (runBest : ℕ → Individual) :
    Except PyErr (List Event × List (List PVal)) :=
  (loadNlpFallback env name).map (fun nlp => find_patterns_core nlp samples cfg runBest)

/-- Selection strategies named by the configuration literals. -/
inductive SelectionType where
  | binaryTournament
  | kTournament
deriving DecidableEq

/-- Replacement strategies named by the configuration literals. -/
inductive ReplacementType where
  | muPlusLambda
  | muLambdaWithElitism
  | muLambdaWithoutElitism
deriving DecidableEq

/-- Errors raised by the population operators. -/
inductive PopErr where
  | notImplementedError
deriving DecidableEq

/-- The mutable state of a Population: its current generation and its
offspring buffer. -/
structure PopState where
  generation : List Individual
  offspring : List Individual
deriving DecidableEq

/-- Modelled from the spec: Population construction (spec §4.5;
`patternomatic.ge.population` is not under the source set).  Construction
stores the initial generation with an empty offspring buffer and does not
inspect the selection mode: per §9 an unimplemented strategy fails only
when invoked, not at configuration time. -/
def populationInit : SelectionType → List Individual → Except PopErr PopState :=
  fun _ inds => .ok ⟨inds, []⟩

/-- Draw one individual from the generation given a raw random number: a
uniform draw with replacement, embedded as an arbitrary natural taken
modulo the generation size. -/
def pick (gen : List Individual) (n : ℕ) : Individual :=
  gen.getD (n % gen.length) default

/-- Modelled from the spec: binary-tournament selection (spec §4.5 step 1):
repeat N times, N being the generation size — draw two individuals at
random with replacement, keep the one with the higher fitness, ties
favouring the first-drawn. -/
def binaryTournament (gen : List Individual) (draw : ℕ → ℕ × ℕ) : List Individual :=
  (List.range gen.length).map (fun t =>
    let a := pick gen (draw t).1
    let b := pick gen (draw t).2
    if b.fitness_value ≤ a.fitness_value then a else b)

/-- Modelled from the spec: the `Population._selection` dispatch (spec §4.5
step 1 and §7): binary tournament returns a mating pool and leaves the
state untouched; k-tournament is declared but unimplemented and raises a
`NotImplementedError`-class error when invoked, also leaving the state
untouched. -/
def selectionRun (sel : SelectionType) (s : PopState) (draw : ℕ → ℕ × ℕ) :
    PopState × Except PopErr (List Individual) :=
  match sel with
  | .binaryTournament => (s, .ok (binaryTournament s.generation draw))
  | .kTournament => (s, .error .notImplementedError)

/-- Modelled from the spec: single-point crossover recombination (spec §4.5
step 2), at the genotype level: consume the mating pool in adjacent pairs;
pair `t` crosses over when its coin `(rnd t).1` is true, producing two
children by swapping the suffixes after a split index in
`[1, genotype_length - 1]` derived from the draw `(rnd t).2`; pairs whose
coin is false pass through as copies.  An unpaired trailing individual is
dropped, the spec fixing the offspring size at N, or N-1 for odd N. -/
def recombineGenotypes (rnd : List (Bool × ℕ)) : List Individual → List (List Bool)
  | [] => []
  | [_] => []
  | a :: b :: rest =>
    let r := rnd.headD (false, 0)
    let k := 1 + r.2 % (a.genotype.length - 1)
    if r.1 then
      (a.genotype.take k ++ b.genotype.drop k)
        :: (b.genotype.take k ++ a.genotype.drop k)
        :: recombineGenotypes rnd.tail rest
    else
      a.genotype :: b.genotype :: recombineGenotypes rnd.tail rest

/-- Modelled from the spec: `Population._replacement` (spec §4.5 step 4):
(μ+λ) keeps the top `n` of parents and offspring pooled; (μ,λ) with
elitism keeps the top `e` parents and fills the remaining slots with the
best offspring; (μ,λ) without elitism keeps exactly the offspring
truncated to `n`.  In every mode the offspring buffer is cleared
afterwards. -/
def replacementRun (mode : ReplacementType) (n e : ℕ) (s : PopState) : PopState :=
  match mode with
  | .muPlusLambda => ⟨(sortDesc (s.generation ++ s.offspring)).take n, []⟩
  | .muLambdaWithElitism =>
    ⟨(sortDesc s.generation).take e ++ (sortDesc s.offspring).take (n - e), []⟩
  | .muLambdaWithoutElitism => ⟨s.offspring.take n, []⟩

/-- A concrete individual used by witnesses and counterexamples. -/
def ind1 : Individual := ⟨[true, true], "P1", 1⟩

/-- A second concrete individual, of lower fitness and different
genotype. -/
def ind2 : Individual := ⟨[false, false], "P2", 0⟩

/-- A concrete two-individual generation. -/
def genC : List Individual := [ind1, ind2]

/-- Tournament draws that pit each individual against itself, so the
mating pool reproduces the generation in order. -/
def drawC : ℕ → ℕ × ℕ := fun t => (t, t)

/-- A concrete pipeline turning each sample into its document. -/
def nlpW : Nlp := ⟨fun s => ⟨s⟩⟩

/-- A concrete spaCy installation in which only `en_core_web_sm` is
available: loading any other name raises `OSError`. -/
def envW : SpacyEnv :=
  ⟨fun n => if n = some "en_core_web_sm" then .ok nlpW else .error .osError⟩

/-- Inserting adds exactly one element. -/
theorem length_insertDesc (a : Individual) (l : List Individual) :
    (insertDesc a l).length = l.length + 1 := by
  induction l with
  | nil => rfl
  | cons b t ih =>
    by_cases h : a.fitness_value ≤ b.fitness_value <;>
      simp [insertDesc, h, ih]

/-- Members of an insertion are the inserted element or old members. -/
theorem mem_insertDesc {x a : Individual} {l : List Individual}
    (h : x ∈ insertDesc a l) : x = a ∨ x ∈ l := by
  induction l with
  | nil => simpa [insertDesc] using h
  | cons b t ih =>
    by_cases hc : a.fitness_value ≤ b.fitness_value
    · simp only [insertDesc, if_pos hc, List.mem_cons] at h
      rcases h with h | h
      · exact Or.inr (by simp [h])
      · rcases ih h with h | h
        · exact Or.inl h
        · exact Or.inr (List.mem_cons_of_mem _ h)
    · simp only [insertDesc, if_neg hc, List.mem_cons] at h
      rcases h with h | h
      · exact Or.inl h
      · exact Or.inr (by simpa using h)

/-- Insertion preserves the descending-sorted invariant. -/
theorem sortedDesc_insertDesc (a : Individual) {l : List Individual}
    (h : SortedDesc l) : SortedDesc (insertDesc a l) := by
  induction l with
  | nil => simp [insertDesc, SortedDesc]
  | cons b t ih =>
    simp only [SortedDesc, List.pairwise_cons] at h
    by_cases hc : a.fitness_value ≤ b.fitness_value
    · simp only [SortedDesc, insertDesc, if_pos hc, List.pairwise_cons]
      refine ⟨fun x hx => ?_, ih h.2⟩
      rcases mem_insertDesc hx with rfl | hx
      · exact hc
      · exact h.1 x hx
    · simp only [SortedDesc, insertDesc, if_neg hc, List.pairwise_cons]
      push_neg at hc
      refine ⟨fun x hx => ?_, ?_⟩
      · rcases List.mem_cons.mp hx with rfl | hx
        · exact le_of_lt hc
        · exact le_trans (h.1 x hx) (le_of_lt hc)
      · exact h

/-- A list all of whose fitness values sit strictly below `q` has no
member of fitness `q`. -/
theorem filter_hasFit_eq_nil {q : ℚ} {l : List Individual}
    (h : ∀ x ∈ l, x.fitness_value < q) : l.filter (hasFit q) = [] := by
  induction l with
  | nil => rfl
  | cons b t ih =>
    rw [List.filter_cons]
    have hb : hasFit q b = false := by
      simp only [hasFit, decide_eq_false_iff_not]
      exact ne_of_lt (h b (List.mem_cons_self b t))
    simp only [hb, Bool.false_eq_true, if_false]
    exact ih (fun x hx => h x (List.mem_cons_of_mem _ hx))

/-- Inserting an element of fitness `q` into a descending-sorted list puts
it after every already-present element of fitness `q`. -/
theorem filter_insertDesc_pos {q : ℚ} (a : Individual) {l : List Individual}
    (hs : SortedDesc l) (ha : a.fitness_value = q) :
    (insertDesc a l).filter (hasFit q) = l.filter (hasFit q) ++ [a] := by
  induction l with
  | nil => simp [insertDesc, List.filter_cons, hasFit, ha]
  | cons b t ih =>
    simp only [SortedDesc, List.pairwise_cons] at hs
    by_cases hc : a.fitness_value ≤ b.fitness_value
    · rw [insertDesc, if_pos hc, List.filter_cons, List.filter_cons]
      rcases hb : hasFit q b with _ | _
      · simpa [hb] using ih hs.2
      · simpa [hb] using ih hs.2
    · push_neg at hc
      rw [insertDesc, if_neg (not_le.mpr hc), List.filter_cons]
      have ha' : hasFit q a = true := by simp [hasFit, ha]
      have hnil : (b :: t).filter (hasFit q) = [] := by
        refine filter_hasFit_eq_nil (fun x hx => ?_)
        rcases List.mem_cons.mp hx with rfl | hx
        · exact ha ▸ hc
        · exact lt_of_le_of_lt (hs.1 x hx) (ha ▸ hc)
      simp [ha', hnil]

/-- Inserting an element of fitness other than `q` leaves the fitness-`q`
members untouched. -/
theorem filter_insertDesc_neg {q : ℚ} (a : Individual) (l : List Individual)
    (ha : a.fitness_value ≠ q) :
    (insertDesc a l).filter (hasFit q) = l.filter (hasFit q) := by
  have ha' : hasFit q a = false := by
    simp only [hasFit, decide_eq_false_iff_not]; exact ha
  induction l with
  | nil => simp [insertDesc, List.filter_cons, ha']
  | cons b t ih =>
    by_cases hc : a.fitness_value ≤ b.fitness_value
    · rw [insertDesc, if_pos hc, List.filter_cons, List.filter_cons]
      rcases hb : hasFit q b with _ | _ <;> simp [hb, ih]
    · rw [insertDesc, if_neg hc, List.filter_cons, ha']
      simp

/-- The insertion-sort loop keeps its accumulator descending-sorted. -/
theorem sortDesc_loop_sorted (l : List Individual) (acc : List Individual)
    (h : SortedDesc acc) :
    SortedDesc (List.foldl (fun acc a => insertDesc a acc) acc l) := by
  induction l generalizing acc with
  | nil => simpa using h
  | cons x t ih => exact ih _ (sortedDesc_insertDesc x h)

/-- The insertion-sort loop is stable: the fitness-`q` members of the
result are the accumulator's followed by the input's, in order. -/
theorem sortDesc_loop_filter (q : ℚ) (l : List Individual) (acc : List Individual)
    (h : SortedDesc acc) :
    (List.foldl (fun acc a => insertDesc a acc) acc l).filter (hasFit q)
      = acc.filter (hasFit q) ++ l.filter (hasFit q) := by
  induction l generalizing acc with
  | nil => simp
  | cons x t ih =>
    rw [List.foldl_cons, ih (insertDesc x acc) (sortedDesc_insertDesc x h),
      List.filter_cons]
    by_cases hx : x.fitness_value = q
    · rw [filter_insertDesc_pos x h hx]
      have : hasFit q x = true := by simp [hasFit, hx]
      simp [this]
    · rw [filter_insertDesc_neg x acc hx]
      have : hasFit q x = false := by simp [hasFit, hx]
      simp [this]

/-- The embedded Python sort returns a fitness-descending list. -/
theorem sortedDesc_sortDesc (l : List Individual) : SortedDesc (sortDesc l) :=
  sortDesc_loop_sorted l [] (by simp [SortedDesc])

/-- The embedded Python sort is stable: it preserves the relative order of
the input's fitness-`q` members, for every `q`. -/
theorem filter_sortDesc (q : ℚ) (l : List Individual) :
    (sortDesc l).filter (hasFit q) = l.filter (hasFit q) :=
  by simpa using sortDesc_loop_filter q l [] (by simp [SortedDesc])

/-- The insertion-sort loop preserves total length. -/
theorem sortDesc_loop_length (l : List Individual) (acc : List Individual) :
    (List.foldl (fun acc a => insertDesc a acc) acc l).length
      = acc.length + l.length := by
  induction l generalizing acc with
  | nil => simp
  | cons x t ih =>
    rw [List.foldl_cons, ih (insertDesc x acc), length_insertDesc]
    simp only [List.length_cons]
    omega

/-- Sorting preserves length. -/
theorem length_sortDesc (l : List Individual) : (sortDesc l).length = l.length := by
  simpa using sortDesc_loop_length l []

/-- The run-by-run accumulator loop keeps the accumulator
descending-sorted. -/
theorem buildAcc_loop_sorted (bests : List Individual) (acc : List Individual)
    (k : ℕ) (h : SortedDesc acc) :
    SortedDesc (List.foldl (addBest k) acc bests) := by
  induction bests generalizing acc with
  | nil => simpa using h
  | cons i bs ih =>
    rw [List.foldl_cons]
    exact ih _ (List.Pairwise.sublist (List.take_sublist k _) (sortedDesc_insertDesc i h))

/-- The fitness-`q` members of the accumulator form a subsequence of the
fitness-`q` run bests in insertion order: the bounded insertion never
reorders equal-fitness individuals. -/
theorem buildAcc_loop_filter (q : ℚ) (bests : List Individual)
    (acc : List Individual) (k : ℕ) (h : SortedDesc acc) :
    List.Sublist ((List.foldl (addBest k) acc bests).filter (hasFit q))
      (acc.filter (hasFit q) ++ bests.filter (hasFit q)) := by
  induction bests generalizing acc with
  | nil => simp
  | cons i bs ih =>
    rw [List.foldl_cons]
    have hsorted : SortedDesc (addBest k acc i) :=
      List.Pairwise.sublist (List.take_sublist k _) (sortedDesc_insertDesc i h)
    have hstep : List.Sublist ((addBest k acc i).filter (hasFit q))
        ((insertDesc i acc).filter (hasFit q)) :=
      (List.take_sublist k (insertDesc i acc)).filter (hasFit q)
    refine (ih _ hsorted).trans ?_
    by_cases hq : i.fitness_value = q
    · rw [filter_insertDesc_pos i h hq] at hstep
      have hi : hasFit q i = true := by simp [hasFit, hq]
      rw [List.filter_cons, hi]
      simp only [if_true]
      rw [show acc.filter (hasFit q) ++ i :: bs.filter (hasFit q)
            = (acc.filter (hasFit q) ++ [i]) ++ bs.filter (hasFit q) by simp]
      exact hstep.append (List.Sublist.refl _)
    · rw [filter_insertDesc_neg i acc hq] at hstep
      have hi : hasFit q i = false := by
        simp only [hasFit, decide_eq_false_iff_not]; exact hq
      rw [List.filter_cons, hi]
      simp only [Bool.false_eq_true, if_false]
      exact hstep.append (List.Sublist.refl _)

/-- The accumulator is descending-sorted at every moment. -/
theorem sortedDesc_buildAcc (k : ℕ) (bests : List Individual) :
    SortedDesc (buildAcc k bests) :=
  buildAcc_loop_sorted bests [] k (by simp [SortedDesc])

/-- Equal-fitness individuals sit in the accumulator in first-seen
order: for every fitness `q`, the accumulator's fitness-`q` members are a
subsequence of the run bests of fitness `q`, in run order. -/
theorem filter_buildAcc_sublist (q : ℚ) (k : ℕ) (bests : List Individual) :
    List.Sublist ((buildAcc k bests).filter (hasFit q))
      (bests.filter (hasFit q)) := by
  simpa using buildAcc_loop_filter q bests [] k (by simp [SortedDesc])

/-- A random draw lands inside a nonempty generation. -/
theorem pick_mem {gen : List Individual} (h : gen ≠ []) (n : ℕ) :
    pick gen n ∈ gen := by
  have hl : 0 < gen.length := List.length_pos.mpr h
  have hlt : n % gen.length < gen.length := Nat.mod_lt _ hl
  have hD : gen.getD (n % gen.length) default = gen.get ⟨n % gen.length, hlt⟩ := by
    simp [List.getD_eq_getElem?_getD, List.getElem?_eq_getElem hlt]
  rw [pick, hD]
  exact List.get_mem gen _ hlt

/-- Rows of uniform width two have shortest-row length two. -/
theorem minRowLen_two {α β : Type} (f g : β → α) (x : β) (l : List β) :
    minRowLen ((x :: l).map (fun y => [f y, g y])) = 2 := by
  induction l generalizing x with
  | nil => rfl
  | cons y t ih =>
    simp only [List.map_cons] at ih ⊢
    rw [minRowLen, ih y]
    simp

/-- Transposing a nonempty list of two-element rows yields the two column
lists. -/
theorem zipStar_two {α β : Type} [Inhabited α] (f g : β → α) (l : List β)
    (h : l ≠ []) :
    zipStar (l.map (fun y => [f y, g y])) = [l.map f, l.map g] := by
  obtain ⟨x, t, rfl⟩ := List.exists_cons_of_ne_nil h
  simp only [List.map_cons, zipStar]
  rw [show minRowLen ([f x, g x] :: t.map (fun y => [f y, g y])) = 2 by
    simpa only [List.map_cons] using minRowLen_two f g x t]
  rw [show List.range 2 = [0, 1] from rfl]
  simp [List.map_map, Function.comp, List.getD_cons_zero, List.getD_cons_succ]

/-- Each loop event belongs to the per-iteration block. -/
theorem mem_loopTrace {x : Event} {docs : List Doc} {g : Grammar} {n : ℕ}
    (h : x ∈ loopTrace docs g n) : x ∈ runBlock docs g := by
  induction n with
  | zero => simp [loopTrace] at h
  | succ m ih =>
    rw [loopTrace] at h
    rcases List.mem_append.mp h with h | h
    · exact ih h
    · exact h

/-- Event counts over the loop trace: `n` iterations contribute `n` copies
of each block event. -/
theorem count_loopTrace (docs : List Doc) (g : Grammar) (e : Event) (n : ℕ) :
    (loopTrace docs g n).count e = n * (runBlock docs g).count e := by
  induction n with
  | zero => simp [loopTrace]
  | succ m ih =>
    rw [loopTrace, List.count_append, ih, Nat.succ_mul]

/-- Claim C1, counterexample: with one accumulated individual the value
`find_patterns` returns has two elements (the tuple of phenotypes and the
tuple of fitness values), while a list of one `(phenotype, fitness)` pair
per individual would have exactly one; the claimed and the actual return
shapes disagree. -/
theorem return_value_not_pairs :
    (return_value [ind1]).length = 2 ∧ (claimed_return [ind1]).length = 1 := by
  decide

/-- Claim C1 (amended): the value returned to the caller is the transpose
of the per-individual rows: a two-element list holding first all
phenotypes, then all fitness values, of the top-K accumulator individuals
sorted in descending order of fitness (and the empty list when the
accumulator is empty). -/
theorem return_value_transposed_sorted (acc : List Individual) (h : acc ≠ []) :
    return_value acc
      = [(sortDesc acc).map (fun i => PVal.fen i.fenotype),
         (sortDesc acc).map (fun i => PVal.fit i.fitness_value)]
    ∧ SortedDesc (sortDesc acc) := by
  have hpos : 0 < (sortDesc acc).length := by
    rw [length_sortDesc]; exact List.length_pos.mpr h
  have hne : sortDesc acc ≠ [] := List.length_pos.mp hpos
  exact ⟨zipStar_two _ _ _ hne, sortedDesc_sortDesc acc⟩

/-- Witness for the amended claim C1, at a concrete two-individual
accumulator. -/
theorem return_value_transposed_sorted_witness :
    genC ≠ [] ∧
    (return_value genC
        = [(sortDesc genC).map (fun i => PVal.fen i.fenotype),
           (sortDesc genC).map (fun i => PVal.fit i.fitness_value)]
      ∧ SortedDesc (sortDesc genC)) :=
  ⟨by decide, return_value_transposed_sorted genC (by decide)⟩

/-- Claim C10: when the top-K accumulator is empty at return time — in
particular when `max_runs` is 0, so the run loop never executes —
`find_patterns` returns the empty list rather than failing. -/
theorem empty_accumulator_returns_nil (nlp : Nlp) (samples : List String)
    (k : ℕ) (runBest : ℕ → Individual) :
    (find_patterns_core nlp samples ⟨0, k⟩ runBest).2 = [] ∧ return_value [] = [] :=
  ⟨rfl, rfl⟩

/-- Claim C8: the final ordering of the accumulator is descending by
fitness, and ties are broken by first-seen order: the final sort is stable
(it preserves the accumulator's relative order of equal-fitness
individuals), and for every fitness value the accumulator holds its
equal-fitness individuals as a subsequence of the run bests in insertion
order. -/
theorem accumulator_sorted_stable (bests : List Individual) (k : ℕ) (q : ℚ) :
    SortedDesc (sortDesc (buildAcc k bests))
    ∧ (sortDesc (buildAcc k bests)).filter (hasFit q)
        = (buildAcc k bests).filter (hasFit q)
    ∧ List.Sublist ((buildAcc k bests).filter (hasFit q))
        (bests.filter (hasFit q)) :=
  ⟨sortedDesc_sortDesc _, filter_sortDesc q _, filter_buildAcc_sublist q k bests⟩

/-- Claim C2: the trace of `find_patterns` opens with the single grammar
construction, runs exactly `max_runs` iterations of the evolve loop — each
iteration constructing a fresh Population from the same annotated samples
and the same grammar and recording its elapsed time with exactly one
`add_time` call — so the evolve, `add_time` and Population-construction
events are each counted `max_runs` times, while the grammar is built
exactly once, before any loop event. -/
theorem find_patterns_loop_structure (nlp : Nlp) (samples : List String)
    (cfg : Config) (runBest : ℕ → Individual) :
    ((find_patterns_core nlp samples cfg runBest).1.count .evolveCall = cfg.max_runs)
    ∧ ((find_patterns_core nlp samples cfg runBest).1.count .addTime = cfg.max_runs)
    ∧ ((find_patterns_core nlp samples cfg runBest).1.count .buildGrammar = 1)
    ∧ ((find_patterns_core nlp samples cfg runBest).1.count
        (.newPopulation (samples.map nlp.buildDoc) (dgg (samples.map nlp.buildDoc)))
        = cfg.max_runs)
    ∧ ((find_patterns_core nlp samples cfg runBest).1.head? = some .buildGrammar)
    ∧ (∀ d g, Event.newPopulation d g ∈ (find_patterns_core nlp samples cfg runBest).1 →
        d = samples.map nlp.buildDoc ∧ g = dgg (samples.map nlp.buildDoc)) := by
  refine ⟨?_, ?_, ?_, ?_, ?_, ?_⟩
  · simp [find_patterns_core, List.count_cons, List.count_append, count_loopTrace,
      runBlock, List.count_singleton]
  · simp [find_patterns_core, List.count_cons, List.count_append, count_loopTrace,
      runBlock, List.count_singleton]
  · simp [find_patterns_core, List.count_cons, List.count_append, count_loopTrace,
      runBlock, List.count_singleton]
  · simp [find_patterns_core, List.count_cons, List.count_append, count_loopTrace,
      runBlock, List.count_singleton]
  · simp [find_patterns_core]
  · intro d g hmem
    simp only [find_patterns_core, List.mem_cons, List.mem_append] at hmem
    rcases hmem with (h | h) | h
    · exact absurd h (by simp)
    · have := mem_loopTrace h
      simp only [runBlock, List.mem_cons, List.not_mem_nil, or_false] at this
      rcases this with h' | h' | h' | h'
      · obtain ⟨rfl, rfl⟩ := Event.newPopulation.inj h'
        exact ⟨rfl, rfl⟩
      · exact absurd h' (by simp)
      · exact absurd h' (by simp)
      · exact absurd h' (by simp)
    · exact absurd h (by simp)

/-- Claim C9: when loading the named spaCy model raises `OSError`,
`find_patterns` does not propagate the error: it falls back to loading
`en_core_web_sm` and, that load succeeding, continues and completes the
run normally. -/
theorem oserror_fallback_continues (env : SpacyEnv) (name : Option String)
    (samples : List String) (cfg : Config) (runBest : ℕ → Individual) (nlp : Nlp)
    (h1 : env.load name = .error .osError)
    (h2 : env.load (some "en_core_web_sm") = .ok nlp) :
    loadNlpFallback env name = .ok nlp
    ∧ find_patterns env name samples cfg runBest
        = .ok (find_patterns_core nlp samples cfg runBest) := by
  have hl : loadNlpFallback env name = .ok nlp := by
    simp only [loadNlpFallback, h1]
    exact h2
  exact ⟨hl, by simp only [find_patterns, hl, Except.map]⟩

/-- Witness for claim C9, in a concrete installation where only
`en_core_web_sm` loads and every other name raises `OSError`. -/
theorem oserror_fallback_continues_witness :
    envW.load (some "missing") = .error .osError
    ∧ envW.load (some "en_core_web_sm") = .ok nlpW
    ∧ (loadNlpFallback envW (some "missing") = .ok nlpW
      ∧ find_patterns envW (some "missing") ["a b"] ⟨1, 5⟩ (fun _ => ind1)
          = .ok (find_patterns_core nlpW ["a b"] ⟨1, 5⟩ (fun _ => ind1))) :=
  ⟨rfl, rfl,
    oserror_fallback_continues envW (some "missing") ["a b"] ⟨1, 5⟩
      (fun _ => ind1) nlpW rfl rfl⟩

/-- Claim C4: a Population configured with k-tournament selection is
constructed without error, and invoking `_selection` then fails with the
`NotImplementedError`-class error while leaving the generation — the whole
population state — unmodified. -/
theorem k_tournament_deferred_failure (inds : List Individual) (s : PopState)
    (draw : ℕ → ℕ × ℕ) :
    populationInit .kTournament inds = .ok ⟨inds, []⟩
    ∧ (selectionRun .kTournament s draw).1 = s
    ∧ (selectionRun .kTournament s draw).2 = .error .notImplementedError :=
  ⟨rfl, rfl, rfl⟩

/-- Claim C6: the binary-tournament mating pool has exactly the
generation's size, and every selected individual is one of the current
generation — each tournament keeps the fitter of its two drawn
individuals — so its genotype is bitwise identical to a genotype present
in the generation. -/
theorem binary_tournament_pool (gen : List Individual) (draw : ℕ → ℕ × ℕ)
    (h : gen ≠ []) :
    (binaryTournament gen draw).length = gen.length
    ∧ ∀ x ∈ binaryTournament gen draw, ∃ y ∈ gen, x.genotype = y.genotype := by
  constructor
  · simp [binaryTournament]
  · intro x hx
    simp only [binaryTournament, List.mem_map, List.mem_range] at hx
    obtain ⟨t, _, rfl⟩ := hx
    by_cases hc : (pick gen (draw t).2).fitness_value ≤ (pick gen (draw t).1).fitness_value
    · exact ⟨pick gen (draw t).1, pick_mem h _, by simp [hc]⟩
    · exact ⟨pick gen (draw t).2, pick_mem h _, by simp [hc]⟩

/-- Witness for claim C6, at a concrete two-individual generation with
self-paired draws. -/
theorem binary_tournament_pool_witness :
    genC ≠ [] ∧
    ((binaryTournament genC drawC).length = genC.length
      ∧ ∀ x ∈ binaryTournament genC drawC, ∃ y ∈ genC, x.genotype = y.genotype) :=
  ⟨by decide, binary_tournament_pool genC drawC (by decide)⟩

/-- Claim C3: for every replacement mode, `_replacement` leaves the
offspring buffer empty and the generation at exactly the configured
population size, given a conforming state: `n` parents, `n` offspring and
an elite count of at most `n`. -/
theorem replacement_clears_and_preserves (mode : ReplacementType) (n e : ℕ)
    (s : PopState) (hg : s.generation.length = n) (ho : s.offspring.length = n)
    (he : e ≤ n) :
    (replacementRun mode n e s).offspring = []
    ∧ (replacementRun mode n e s).generation.length = n := by
  cases mode with
  | muPlusLambda =>
    refine ⟨rfl, ?_⟩
    simp only [replacementRun, List.length_take, List.length_append,
      length_sortDesc, hg, ho]
    omega
  | muLambdaWithElitism =>
    refine ⟨rfl, ?_⟩
    simp only [replacementRun, List.length_append, List.length_take,
      length_sortDesc, hg, ho]
    omega
  | muLambdaWithoutElitism =>
    refine ⟨rfl, ?_⟩
    simp only [replacementRun, List.length_take, ho]
    omega

/-- Witness for claim C3, at a concrete population of size two with one
elite slot, under (μ,λ)-with-elitism replacement. -/
theorem replacement_clears_and_preserves_witness :
    ((⟨genC, genC⟩ : PopState).generation.length = 2
      ∧ (⟨genC, genC⟩ : PopState).offspring.length = 2 ∧ 1 ≤ 2)
    ∧ ((replacementRun .muLambdaWithElitism 2 1 ⟨genC, genC⟩).offspring = []
      ∧ (replacementRun .muLambdaWithElitism 2 1 ⟨genC, genC⟩).generation.length = 2) :=
  ⟨⟨by decide, by decide, by decide⟩,
    replacement_clears_and_preserves .muLambdaWithElitism 2 1 ⟨genC, genC⟩
      (by decide) (by decide) (by decide)⟩

/-- Claim C7, counterexample: with tournament draws that pit each
individual against itself and a crossover coin that stays false, the
offspring genotype list produced by `_recombination` on the selected
mating pool is exactly the generation's genotype list, so the claimed
inequality does not hold for every random draw. -/
theorem recombination_can_equal_generation :
    recombineGenotypes [(false, 0)] (binaryTournament genC drawC)
      = genC.map Individual.genotype := by
  decide

/-- Claim C7 (amended): whether the offspring differs from the
generation's genotype list depends on the random draws: with a crossover
between the two distinct genotypes it differs, while with self-paired
draws and no crossover it coincides. -/
theorem recombination_differs_for_some_draws :
    recombineGenotypes [(true, 0)] (binaryTournament genC drawC)
      ≠ genC.map Individual.genotype
    ∧ recombineGenotypes [(false, 0)] (binaryTournament genC drawC)
      = genC.map Individual.genotype := by
  decide
